import Mathlib

/-!
Verification of the jpge baseline JPEG encoder (`src/ex2/jpeg/src/jpge.h`).

The repository ships only the header: the inline bodies present there
(`params::params`, `params::check`, the `subsampling_t` enum) are embedded
directly; every out-of-line member function is modelled from the
specification, as marked in each doc comment.
-/

namespace jpge

/-- C cast `(uint)i` of a signed `int` to a 32-bit unsigned value. -/
def intToUint32 (i : Int) : Nat := (i % (2 ^ 32)).toNat

/-- Embeds `struct params` (jpge.h lines 33-57).  `m_subsampling` is a C enum
whose underlying type is `int`, so out-of-range values are representable;
we therefore carry it as `Int`. -/
structure params where
  m_quality : Int
  m_subsampling : Int
  m_no_chroma_discrim_flag : Bool
  m_two_pass_flag : Bool

/-- The default constructor `params() : m_quality(85), m_subsampling(H2V2),
m_no_chroma_discrim_flag(false), m_two_pass_flag(false)` (jpge.h line 34);
`H2V2 = 3`. -/
def params.default_ctor : params :=
  { m_quality := 85
    m_subsampling := 3
    m_no_chroma_discrim_flag := false
    m_two_pass_flag := false }

/-- `params::check` (jpge.h lines 36-40):
`if ((m_quality < 1) || (m_quality > 100)) return false;`
`if ((uint)m_subsampling > (uint)H2V2) return false;`
`return true;` where `(uint)H2V2 = 3`. -/
def params.check (p : params) : Bool :=
  if p.m_quality < 1 ∨ 100 < p.m_quality then false
  else if 3 < intToUint32 p.m_subsampling then false
  else true

/-- Modelled from the spec: `jpeg_encoder::init` (declared jpge.h line 133,
body not in the repository) "validates params, ... emits no bytes yet", and
"Quality outside [1,100], or an out-of-range subsampling enum value, fails
initialization with ParameterValidation and produces zero bytes of output."
The encoding that would follow a successful init is abstracted as `body`;
the model returns the success flag and the bytes written to the sink. -/
def init_model (p : params) (body : List Nat) : Bool × List Nat :=
  if p.check then (true, body) else (false, [])

/-- Embeds `enum subsampling_t { Y_ONLY = 0, H1V1 = 1, H2V1 = 2, H2V2 = 3 }`
(jpge.h line 30), restricted to the in-range values. -/
inductive subsampling_t
  | Y_ONLY
  | H1V1
  | H2V1
  | H2V2
deriving DecidableEq

/-- The numeric value of each enumerator (jpge.h line 30). -/
def subsampling_t.toInt : subsampling_t → Int
  | .Y_ONLY => 0
  | .H1V1 => 1
  | .H2V1 => 2
  | .H2V2 => 3

/-- Modelled from the spec: MCU pixel dimensions "(8×8, 16×8, or 16×16
pixels) are derived from the subsampling mode" (spec §3); the luma plane of
an MCU is `mcu_w × mcu_h` pixels. -/
def mcu_dims : subsampling_t → Nat × Nat
  | .Y_ONLY => (8, 8)
  | .H1V1 => (8, 8)
  | .H2V1 => (16, 8)
  | .H2V2 => (16, 16)

/-- Modelled from the spec: component count, 1 for grayscale (Y only),
3 (Y, Cb, Cr) otherwise (spec §4.1, §6). -/
def num_components_of : subsampling_t → Nat
  | .Y_ONLY => 1
  | _ => 3

/-- Modelled from the spec: 8x8 blocks per MCU = luma blocks covering the
MCU (`mcu_w/8 * mcu_h/8`) plus one blended 8x8 block per chroma component
(spec §4.2: chroma is box-filter downsampled into a single 8×8 block per
component). -/
def blocks_per_mcu (s : subsampling_t) : Nat :=
  ((mcu_dims s).1 / 8) * ((mcu_dims s).2 / 8) + (num_components_of s - 1)

/-- Per-component sampling factors as reported in SOF0. -/
structure SofComponent where
  h_samp : Nat
  v_samp : Nat
deriving DecidableEq

/-- The header fields of an initialized encoder that the claims inspect. -/
structure EncoderConfig where
  num_components : Nat
  comps : List SofComponent
  dqt_segments : Nat
  dht_pairs : Nat
deriving DecidableEq

/-- Luma sampling factors per subsampling mode (spec §8 concrete scenario:
2×2 subsampling gives luma factors (2,2), chroma (1,1)). -/
def luma_samp : subsampling_t → SofComponent
  | .Y_ONLY => ⟨1, 1⟩
  | .H1V1 => ⟨1, 1⟩
  | .H2V1 => ⟨2, 1⟩
  | .H2V2 => ⟨2, 2⟩

/-- Modelled from the spec: `jpeg_encoder::jpg_open` (declared jpge.h
line 188, body not in the repository) "computes MCU geometry from
subsampling and source channel count (1 → luma-only regardless of requested
subsampling; 3 → honor requested subsampling)" (spec §4.1), emits "one or
two DQT segments (one table, or two if chroma discrimination is enabled)"
and "two or four DHT segments" (spec §4.6). -/
def jpg_open_model (src_channels : Nat) (req : subsampling_t)
    (no_chroma_discrim : Bool) : EncoderConfig :=
  let actual := if src_channels = 1 then subsampling_t.Y_ONLY else req
  if actual = subsampling_t.Y_ONLY then
    { num_components := 1
      comps := [⟨1, 1⟩]
      dqt_segments := 1
      dht_pairs := 1 }
  else
    { num_components := 3
      comps := [luma_samp actual, ⟨1, 1⟩, ⟨1, 1⟩]
      dqt_segments := if no_chroma_discrim then 1 else 2
      dht_pairs := 2 }

/-- A JPEG marker segment: the two marker bytes `0xFF, marker` followed by
its payload (length word included in the payload, when present). -/
structure MarkerSegment where
  marker : Nat
  payload : List Nat

/-- The bytes of one marker segment. -/
def segBytes (s : MarkerSegment) : List Nat := 0xFF :: s.marker :: s.payload

/-- Modelled from the spec: `jpeg_encoder::emit_word` (declared jpge.h
line 175, body not in the repository): "All multi-byte fields are
big-endian" (spec §4.6) — the high byte of the 16-bit value is emitted
first. -/
def emit_word (w : Nat) : List Nat := [(w / 256) % 256, w % 256]

/-- Modelled from the spec: `jpeg_encoder::emit_markers` (declared jpge.h
line 183, body not in the repository) "writes, in fixed order: SOI; APP0;
one or two DQT segments; SOF0; two or four DHT segments; SOS" (spec §4.6).
Payload contents are abstract; only the marker structure is modelled. -/
def emit_markers_model (twoQuantTables fourHuffTables : Bool)
    (app0 dqtA dqtB sof dhtA dhtB dhtC dhtD sos : List Nat) :
    List MarkerSegment :=
  [⟨0xD8, []⟩, ⟨0xE0, app0⟩, ⟨0xDB, dqtA⟩]
    ++ (if twoQuantTables then [⟨0xDB, dqtB⟩] else [])
    ++ [⟨0xC0, sof⟩, ⟨0xC4, dhtA⟩, ⟨0xC4, dhtB⟩]
    ++ (if fourHuffTables then [⟨0xC4, dhtC⟩, ⟨0xC4, dhtD⟩] else [])
    ++ [⟨0xDA, sos⟩]

/-- Modelled from the spec: the byte stream of a successful encode is the
header segments, then the entropy-coded data, then EOI `FF D9` (spec §6). -/
def jpeg_stream (segs : List MarkerSegment) (entropy : List Nat) : List Nat :=
  (segs.map segBytes).flatten ++ entropy ++ [0xFF, 0xD9]

/-- Byte-stuffing predicate: every `0xFF` byte in the list is immediately
followed by a `0x00` byte (in particular no trailing `0xFF`). -/
def stuffedOk : List Nat → Bool
  | [] => true
  | [b] => b ≠ 0xFF
  | b :: c :: rest =>
    if b = 0xFF then c = 0 && stuffedOk (c :: rest) else stuffedOk (c :: rest)

/-- Modelled from the spec: flushing one byte to the output cache stuffs a
`0x00` after a literal `0xFF` (spec §4.5: "Any emitted byte equal to 0xFF is
immediately followed by a stuffed 0x00 byte"). -/
def emit_stuffed (b : Nat) (out : List Nat) : List Nat :=
  if b = 0xFF then out ++ [0xFF, 0x00] else out ++ [b]

/-- State of the bit packer: the 32-bit accumulator (contents left-aligned,
i.e. the oldest bit is bit 31), the number of valid bits, and the bytes
flushed so far (jpge.h lines 168-169: `m_bit_buffer`, `m_bits_in`). -/
structure BitState where
  bit_buffer : Nat
  bits_in : Nat
  out : List Nat

/-- Modelled from the spec: the flush loop of `jpeg_encoder::put_bits`
(declared jpge.h line 195, body not in the repository): "whenever ≥8 bits
are present, a byte is emitted to the output buffer" (spec §4.5).  The top
byte of the 32-bit accumulator is emitted (with stuffing) and the
accumulator shifts left by 8.  `fuel` bounds the number of iterations; the
initial `bits_in` always suffices. -/
def flushLoop : Nat → Nat → Nat → List Nat → Nat × Nat × List Nat
  | 0, buf, n, out => (buf, n, out)
  | fuel + 1, buf, n, out =>
    if 8 ≤ n then
      flushLoop fuel ((buf * 256) % 2 ^ 32) (n - 8)
        (emit_stuffed ((buf / 2 ^ 24) % 256) out)
    else (buf, n, out)

/-- Modelled from the spec: `jpeg_encoder::put_bits` packs `len` bits
(the low `len` bits of `bits`) MSB-first into the 32-bit accumulator and
flushes full bytes (spec §4.5).  Requires `bits_in + len ≤ 32` as in the
code's invariant. -/
def put_bits (bits len : Nat) (s : BitState) : BitState :=
  let n := s.bits_in + len
  let buf := (s.bit_buffer + (bits % 2 ^ len) * 2 ^ (32 - n)) % 2 ^ 32
  let r := flushLoop n buf n s.out
  ⟨r.1, r.2.1, r.2.2⟩

/-- Embeds `typedef int16 dctq_t` (jpge.h line 27): the signed 16-bit range
of quantized coefficients. -/
def int16_min : Int := -32768

/-- Upper bound of the `dctq_t` range. -/
def int16_max : Int := 32767

/-- Clamp an integer to the signed 16-bit range. -/
def clamp16 (v : Int) : Int := max int16_min (min int16_max v)

/-- Modelled from the spec: quantization of one DCT coefficient — "divided
by the corresponding quantization-table entry and rounded to the nearest
integer, clamped to the signed 16-bit range" (spec §4.3).  `dct_t` (a C
double) is modelled as `ℚ`; quantization-table entries are `int32`. -/
def quantize_one (x : ℚ) (q : Int) : Int := clamp16 (round (x / (q : ℚ)))

/-- Modelled from the spec: `jpeg_encoder::quantize_pixels` (declared
jpge.h line 193, body not in the repository) quantizes the 64 coefficients
of a block pointwise, in natural row-major order (spec §4.3). -/
def quantize_pixels : List ℚ → List Int → List Int
  | x :: xs, q :: qs => quantize_one x q :: quantize_pixels xs qs
  | _, _ => []

/-- Orchestrator state visible to the failure-propagation claim: jpge.h
line 171 `m_all_stream_writes_succeeded` records whether every sink write
(and allocation) so far succeeded; `initialized` tracks init/deinit. -/
structure EncState where
  initialized : Bool
  all_writes_ok : Bool
deriving DecidableEq

/-- The calls the failure claim ranges over; `readImage` and `processEnd`
carry whether the sink writes (and allocations) they attempt succeed. -/
inductive EncOp
  | readImage (sink_ok : Bool)
  | processEnd (sink_ok : Bool)
  | deinitOp
  | initOp (params_ok : Bool)
deriving DecidableEq

/-- Whether an op is `init`. -/
def EncOp.isInit : EncOp → Bool
  | .initOp _ => true
  | _ => false

/-- Whether an op is one of the encoding calls the claim is about. -/
def EncOp.isEncodeCall : EncOp → Bool
  | .readImage _ => true
  | .processEnd _ => true
  | _ => false

/-- Modelled from the spec: one call on the encoder instance.  "a failed
sink write or an out-of-memory condition is unrecoverable for the current
image and immediately transitions the Orchestrator to a Failed terminal
state — all subsequent calls on that instance must also fail until
deinit+init reinitializes it" (spec §5); `read_image`/`process_end_of_image`
return false on failure (jpge.h lines 144-149); `deinit` "releases all
buffers; safe to call from any state" (spec §4.1). -/
def stepOp (s : EncState) (op : EncOp) : EncState × Bool :=
  match op with
  | .readImage sink_ok =>
    if s.initialized && s.all_writes_ok then
      if sink_ok then (s, true) else ({ s with all_writes_ok := false }, false)
    else ({ s with all_writes_ok := false }, false)
  | .processEnd sink_ok =>
    if s.initialized && s.all_writes_ok then
      if sink_ok then (s, true) else ({ s with all_writes_ok := false }, false)
    else ({ s with all_writes_ok := false }, false)
  | .deinitOp => ({ s with initialized := false }, true)
  | .initOp params_ok =>
    if params_ok then ({ initialized := true, all_writes_ok := true }, true)
    else ({ initialized := false, all_writes_ok := false }, false)

/-- Run a sequence of calls, returning each call paired with its boolean
result, in order. -/
def runOps (s : EncState) : List EncOp → List (EncOp × Bool)
  | [] => []
  | op :: ops =>
    let r := stepOp s op
    (op, r.2) :: runOps r.1 ops

/-- The state after a sequence of calls. -/
def finalState (s : EncState) : List EncOp → EncState
  | [] => s
  | op :: ops => finalState (stepOp s op).1 ops

/-- Pointwise update of a code-length histogram (`huffman_table::m_bits`,
jpge.h line 85, carried as a function from code length to count). -/
def updateAt (f : Nat → Nat) (k v : Nat) : Nat → Nat :=
  fun j => if j = k then v else f j

/-- The largest index `j ≤ n` with a nonzero count, or 0 if none: the
downward search for a shorter-code sibling in the length-limiting
adjustment. -/
def findJ (bits : Nat → Nat) : Nat → Nat
  | 0 => 0
  | j + 1 => if bits (j + 1) ≠ 0 then j + 1 else findJ bits j

/-- Modelled from the spec: one step of the length-limiting adjustment of
`huffman_table::optimize` (declared jpge.h line 89, body not in the
repository): "codes exceeding 16 bits are shortened by borrowing from a
longer-code sibling, per the standard's adjustment procedure" (spec §4.4).
Two codes leave length `i`; one becomes length `i-1`, and a code at the
deepest shorter occupied length `j` splits into two codes at `j+1`. -/
def adjustStep (bits : Nat → Nat) (i : Nat) : Nat → Nat :=
  let j := findJ bits (i - 2)
  let b1 := updateAt bits i (bits i - 2)
  let b2 := updateAt b1 (i - 1) (b1 (i - 1) + 1)
  let b3 := updateAt b2 (j + 1) (b2 (j + 1) + 2)
  updateAt b3 j (b3 j - 1)

/-- The adjustment's inner loop: repeat `adjustStep` until `bits i = 0`.
`fuel` bounds iterations; `bits i` iterations always suffice since each
step removes two codes from length `i`. -/
def adjustLoop : Nat → (Nat → Nat) → Nat → (Nat → Nat)
  | 0, bits, _ => bits
  | fuel + 1, bits, i =>
    if bits i = 0 then bits else adjustLoop fuel (adjustStep bits i) i

/-- The adjustment's outer loop over lengths `16 + k, 16 + k - 1, ..., 17`. -/
def adjustAll : (Nat → Nat) → Nat → (Nat → Nat)
  | bits, 0 => bits
  | bits, k + 1 => adjustAll (adjustLoop (bits (17 + k)) bits (17 + k)) k

/-- Modelled from the spec: the length-limiting phase of
`huffman_table::optimize`, emptying every histogram slot above 16 down to
16 (raw merge depths are bounded by 32). -/
def optimize_adjust (bits : Nat → Nat) : Nat → Nat := adjustAll bits 16

/-- Modelled from the spec: canonical code assignment of
`huffman_table::compute` (declared jpge.h line 90, body not in the
repository): "assign codes canonically: shortest codes first, codes at the
same length assigned in increasing symbol order" (spec §4.4).
`firstCode bits l` is the numeric value of the first code of length `l`:
each length starts where the previous length ended, shifted left one bit. -/
def firstCode (bits : Nat → Nat) : Nat → Nat
  | 0 => 0
  | l + 1 => 2 * (firstCode bits l + bits l)

/-- The code assigned to the `k`-th symbol (in increasing symbol order) of
code length `l`; valid for `k < bits l`. -/
def codeOf (bits : Nat → Nat) (l k : Nat) : Nat := firstCode bits l + k

/-- Code `(c₁, l₁)` is a prefix of code `(c₂, l₂)`: it is no longer, and the
leading `l₁` bits of `c₂` equal `c₁`. -/
def isPrefixCode (c₁ l₁ c₂ l₂ : Nat) : Prop :=
  l₁ ≤ l₂ ∧ c₂ / 2 ^ (l₂ - l₁) = c₁

/-- Kraft weight of the histogram up to length `l`, scaled by `2^16`:
`Σ_{j ≤ l} bits j * 2^(16-j)`.  A histogram is realizable by a prefix code
of maximal length 16 iff `kraftTo bits 16 ≤ 2^16`. -/
def kraftTo (bits : Nat → Nat) : Nat → Nat
  | 0 => 0
  | l + 1 => kraftTo bits l + bits (l + 1) * 2 ^ (16 - (l + 1))

/-- A concrete raw code-length histogram (two symbols at depth 17, one at
depth 2) used to evaluate the Huffman construction on an explicit input. -/
def rawHistSample : Nat → Nat :=
  fun m => if m = 2 then 1 else if m = 17 then 2 else 0

/-- C10: a default-constructed `params` has quality 85, subsampling H2V2,
chroma discrimination enabled (`m_no_chroma_discrim_flag = false`), two-pass
disabled, and passes `params::check`, so default initialization never fails
parameter validation. -/
theorem default_params_valid :
    params.default_ctor.m_quality = 85 ∧
    params.default_ctor.m_subsampling = subsampling_t.H2V2.toInt ∧
    params.default_ctor.m_no_chroma_discrim_flag = false ∧
    params.default_ctor.m_two_pass_flag = false ∧
    params.default_ctor.check = true ∧
    (∀ body, init_model params.default_ctor body = (true, body)) := by
  refine ⟨rfl, rfl, rfl, rfl, by decide, ?_⟩
  intro body
  simp [init_model, params.default_ctor, params.check, intToUint32]

/-- C1: for `int`-representable parameter values, `params::check` accepts
exactly quality in [1,100] together with subsampling in {0,1,2,3}
(the `(uint)` cast sends negative enum values above 3); on rejection,
`jpeg_encoder::init` fails and writes no byte to the sink. -/
theorem init_param_validation (p : params)
    (hs : -(2 ^ 31) ≤ p.m_subsampling ∧ p.m_subsampling < 2 ^ 31) :
    ((1 ≤ p.m_quality ∧ p.m_quality ≤ 100 ∧
        0 ≤ p.m_subsampling ∧ p.m_subsampling ≤ 3) → p.check = true) ∧
    ((p.m_quality < 1 ∨ 100 < p.m_quality ∨
        p.m_subsampling < 0 ∨ 3 < p.m_subsampling) →
      p.check = false ∧ ∀ body, init_model p body = (false, [])) := by
  obtain ⟨hlo, hhi⟩ := hs
  have key : 3 < intToUint32 p.m_subsampling ↔
      ¬(0 ≤ p.m_subsampling ∧ p.m_subsampling ≤ 3) := by
    unfold intToUint32
    omega
  constructor
  · rintro ⟨h1, h2, h3, h4⟩
    unfold params.check
    rw [if_neg (by omega), if_neg (by rw [key]; push_neg; exact ⟨h3, h4⟩)]
  · intro h
    have hc : p.check = false := by
      unfold params.check
      by_cases hq : p.m_quality < 1 ∨ 100 < p.m_quality
      · rw [if_pos hq]
      · rw [if_neg hq, if_pos (by rw [key]; omega)]
    exact ⟨hc, fun body => by simp [init_model, hc]⟩

/-- Witness for `init_param_validation` at quality 85, subsampling value 7
(out of the enum range). -/
theorem init_param_validation_witness :
    ((1 ≤ (85 : Int) ∧ (85 : Int) ≤ 100 ∧ 0 ≤ (7 : Int) ∧ (7 : Int) ≤ 3) →
      params.check ⟨85, 7, false, false⟩ = true) ∧
    (((85 : Int) < 1 ∨ 100 < (85 : Int) ∨ (7 : Int) < 0 ∨ 3 < (7 : Int)) →
      params.check ⟨85, 7, false, false⟩ = false ∧
      ∀ body, init_model ⟨85, 7, false, false⟩ body = (false, [])) :=
  init_param_validation ⟨85, 7, false, false⟩ (by constructor <;> decide)

/-- C4: blocks per MCU by subsampling mode: Y_ONLY → 1, H1V1 → 3,
H2V1 → 4, H2V2 → 6. -/
theorem blocks_per_mcu_values :
    blocks_per_mcu .Y_ONLY = 1 ∧ blocks_per_mcu .H1V1 = 3 ∧
    blocks_per_mcu .H2V1 = 4 ∧ blocks_per_mcu .H2V2 = 6 := by
  decide

/-- C5: a 1-channel source forces luma-only output for every requested
subsampling mode and chroma-discrimination setting: one SOF0 component with
sampling factors (1,1), one DQT segment, one DC/AC DHT pair. -/
theorem grayscale_forces_luma_only (req : subsampling_t) (ncd : Bool) :
    jpg_open_model 1 req ncd =
      { num_components := 1
        comps := [⟨1, 1⟩]
        dqt_segments := 1
        dht_pairs := 1 } := by
  cases req <;> cases ncd <;> decide

/-- C2: every successful encode's byte stream starts with SOI `FF D8`, ends
with EOI `FF D9`, contains exactly one SOF0 and one SOS segment, emits the
segments in the fixed order SOI, APP0, DQT, SOF0, DHT, SOS, and writes
16-bit marker fields big-endian. -/
theorem marker_stream_structure (tq fh : Bool)
    (app0 dqtA dqtB sof dhtA dhtB dhtC dhtD sos entropy : List Nat)
    (w : Nat) (hw : w < 2 ^ 16) :
    (jpeg_stream (emit_markers_model tq fh app0 dqtA dqtB sof dhtA dhtB dhtC dhtD sos)
        entropy).take 2 = [0xFF, 0xD8] ∧
    List.IsSuffix [0xFF, 0xD9]
      (jpeg_stream (emit_markers_model tq fh app0 dqtA dqtB sof dhtA dhtB dhtC dhtD sos)
        entropy) ∧
    (emit_markers_model tq fh app0 dqtA dqtB sof dhtA dhtB dhtC dhtD sos).countP
        (fun s => s.marker == 0xC0) = 1 ∧
    (emit_markers_model tq fh app0 dqtA dqtB sof dhtA dhtB dhtC dhtD sos).countP
        (fun s => s.marker == 0xDA) = 1 ∧
    (emit_markers_model tq fh app0 dqtA dqtB sof dhtA dhtB dhtC dhtD sos).map
        MarkerSegment.marker =
      [0xD8, 0xE0] ++ List.replicate (if tq then 2 else 1) 0xDB ++ [0xC0]
        ++ List.replicate (if fh then 4 else 2) 0xC4 ++ [0xDA] ∧
    emit_word w = [w / 256, w % 256] ∧ 256 * (w / 256) + w % 256 = w := by
  refine ⟨?_, ?_, ?_, ?_, ?_, ?_⟩
  · cases tq <;> cases fh <;>
      simp [jpeg_stream, emit_markers_model, segBytes]
  · unfold jpeg_stream
    exact List.suffix_append _ [0xFF, 0xD9]
  · cases tq <;> cases fh <;>
      simp [emit_markers_model, List.countP_append, List.countP_cons]
  · cases tq <;> cases fh <;>
      simp [emit_markers_model, List.countP_append, List.countP_cons]
  · cases tq <;> cases fh <;> simp [emit_markers_model]
  · refine ⟨?_, by omega⟩
    unfold emit_word
    have : w / 256 < 256 := by omega
    rw [Nat.mod_eq_of_lt this]

/-- Witness for `marker_stream_structure`: two DQT segments, four DHT
segments, empty payloads, and the 16-bit word `0xFFC0`. -/
theorem marker_stream_structure_witness :
    (jpeg_stream (emit_markers_model true true [] [] [] [] [] [] [] [] [])
        []).take 2 = [0xFF, 0xD8] ∧
    List.IsSuffix [0xFF, 0xD9]
      (jpeg_stream (emit_markers_model true true [] [] [] [] [] [] [] [] []) []) ∧
    (emit_markers_model true true [] [] [] [] [] [] [] [] []).countP
        (fun s => s.marker == 0xC0) = 1 ∧
    (emit_markers_model true true [] [] [] [] [] [] [] [] []).countP
        (fun s => s.marker == 0xDA) = 1 ∧
    (emit_markers_model true true [] [] [] [] [] [] [] [] []).map
        MarkerSegment.marker =
      [0xD8, 0xE0] ++ List.replicate (if true then 2 else 1) 0xDB ++ [0xC0]
        ++ List.replicate (if true then 4 else 2) 0xC4 ++ [0xDA] ∧
    emit_word 0xFFC0 = [0xFFC0 / 256, 0xFFC0 % 256] ∧
    256 * (0xFFC0 / 256) + 0xFFC0 % 256 = 0xFFC0 :=
  marker_stream_structure true true [] [] [] [] [] [] [] [] [] []
    0xFFC0 (by decide)

/-- `stuffedOk` is preserved by concatenation of stuffed lists. -/
theorem stuffedOk_append (xs ys : List Nat) (hx : stuffedOk xs = true)
    (hy : stuffedOk ys = true) : stuffedOk (xs ++ ys) = true := by
  induction xs with
  | nil => simpa using hy
  | cons b rest ih =>
    cases rest with
    | nil =>
      have hb : (b == 0xFF) = false := by
        by_cases h : b = 0xFF
        · rw [h] at hx; exact absurd hx (by decide)
        · simp [h]
      cases ys with
      | nil => simpa using hx
      | cons c r =>
        show stuffedOk (b :: c :: r) = true
        unfold stuffedOk
        rw [if_neg (by simpa using hb)]
        exact hy
    | cons c r =>
      by_cases hb : b = 0xFF
      · subst hb
        have hx2 : c = 0 ∧ stuffedOk (c :: r) = true := by
          have h : (if (0xFF : Nat) = 0xFF then
              decide (c = 0) && stuffedOk (c :: r)
              else stuffedOk (c :: r)) = true := hx
          rw [if_pos rfl] at h
          simpa using h
        show (if (0xFF : Nat) = 0xFF then
            decide (c = 0) && stuffedOk (c :: (r ++ ys))
            else stuffedOk (c :: (r ++ ys))) = true
        rw [if_pos rfl]
        obtain ⟨hc, hrest⟩ := hx2
        subst hc
        simpa using ih hrest
      · have hx2 : stuffedOk (c :: r) = true := by
          have h : (if b = 0xFF then
              decide (c = 0) && stuffedOk (c :: r)
              else stuffedOk (c :: r)) = true := hx
          rwa [if_neg hb] at h
        show (if b = 0xFF then
            decide (c = 0) && stuffedOk (c :: (r ++ ys))
            else stuffedOk (c :: (r ++ ys))) = true
        rw [if_neg hb]
        exact ih hx2

/-- Emitting one byte with stuffing preserves the byte-stuffing invariant. -/
theorem emit_stuffed_ok (b : Nat) (out : List Nat)
    (h : stuffedOk out = true) : stuffedOk (emit_stuffed b out) = true := by
  unfold emit_stuffed
  by_cases hb : b = 0xFF
  · rw [if_pos hb]
    exact stuffedOk_append _ _ h (by decide)
  · rw [if_neg hb]
    exact stuffedOk_append _ _ h (by simp [stuffedOk, hb])

/-- The flush loop of the bit packer preserves the byte-stuffing
invariant. -/
theorem flushLoop_ok : ∀ (fuel buf n : Nat) (out : List Nat),
    stuffedOk out = true → stuffedOk (flushLoop fuel buf n out).2.2 = true := by
  intro fuel
  induction fuel with
  | zero => intro buf n out h; exact h
  | succ f ih =>
    intro buf n out h
    unfold flushLoop
    by_cases hn : 8 ≤ n
    · rw [if_pos hn]
      exact ih _ _ _ (emit_stuffed_ok _ _ h)
    · rw [if_neg hn]
      exact h

/-- C3: `put_bits` preserves the byte-stuffing invariant of the emitted
entropy-coded bytes: after any call, every literal `0xFF` byte in the
output cache is immediately followed by `0x00`. -/
theorem put_bits_stuffed (bits len : Nat) (s : BitState)
    (h : stuffedOk s.out = true) :
    stuffedOk (put_bits bits len s).out = true :=
  flushLoop_ok _ _ _ _ h

/-- Witness for `put_bits_stuffed`: packing the eight bits `11111111`
into an empty packer emits `FF` followed by a stuffed `00`. -/
theorem put_bits_stuffed_witness :
    stuffedOk (put_bits 0xFF 8 ⟨0, 0, []⟩).out = true ∧
    (put_bits 0xFF 8 ⟨0, 0, []⟩).out = [0xFF, 0x00] :=
  ⟨put_bits_stuffed 0xFF 8 ⟨0, 0, []⟩ (by decide), by decide⟩

/-- `quantize_pixels` produces one output per (coefficient, table entry)
pair. -/
theorem quantize_pixels_length : ∀ (src : List ℚ) (qt : List Int),
    (quantize_pixels src qt).length = min src.length qt.length := by
  intro src
  induction src with
  | nil => intro qt; cases qt <;> simp [quantize_pixels]
  | cons x xs ih =>
    intro qt
    cases qt with
    | nil => simp [quantize_pixels]
    | cons q qs => simp [quantize_pixels, ih qs, Nat.succ_min_succ]

/-- Pointwise description of `quantize_pixels`: position `i` of the output
is the quantization of position `i` of the input against entry `i` of the
table (natural row-major order, no reordering). -/
theorem quantize_pixels_getD : ∀ (src : List ℚ) (qt : List Int) (i : Nat),
    i < src.length → i < qt.length →
    (quantize_pixels src qt).getD i 0 =
      quantize_one (src.getD i 0) (qt.getD i 0) := by
  intro src
  induction src with
  | nil => intro qt i h _; exact absurd h (by simp)
  | cons x xs ih =>
    intro qt i hs hq
    cases qt with
    | nil => exact absurd hq (by simp)
    | cons q qs =>
      cases i with
      | zero => rfl
      | succ j =>
        show (quantize_pixels xs qs).getD j 0 = _
        exact ih qs j (by simpa using hs) (by simpa using hq)

/-- The clamp keeps every quantized coefficient in the `dctq_t` range. -/
theorem clamp16_range (v : Int) :
    int16_min ≤ clamp16 v ∧ clamp16 v ≤ int16_max := by
  unfold clamp16 int16_min int16_max
  omega

/-- C7: each of the 64 DCT coefficients is divided by the corresponding
quantization-table entry, rounded to the nearest integer and clamped to
the signed 16-bit `dctq_t` range, with the DC and 63 AC coefficients kept
in natural row-major order (output position `i` comes from input position
`i`); when the rounded quotient already fits, the clamp is the identity. -/
theorem quantize_pixels_spec (src : List ℚ) (qt : List Int) (i : Nat)
    (hs : src.length = 64) (hq : qt.length = 64) (hi : i < 64) :
    (quantize_pixels src qt).length = 64 ∧
    (quantize_pixels src qt).getD i 0 =
      quantize_one (src.getD i 0) (qt.getD i 0) ∧
    int16_min ≤ (quantize_pixels src qt).getD i 0 ∧
    (quantize_pixels src qt).getD i 0 ≤ int16_max ∧
    (∀ (x : ℚ) (q : Int), int16_min ≤ round (x / (q : ℚ)) →
      round (x / (q : ℚ)) ≤ int16_max →
      quantize_one x q = round (x / (q : ℚ))) := by
  have hlen : (quantize_pixels src qt).length = 64 := by
    rw [quantize_pixels_length, hs, hq]
    omega
  have hpt := quantize_pixels_getD src qt i (by omega) (by omega)
  refine ⟨hlen, hpt, ?_, ?_, ?_⟩
  · rw [hpt]; exact (clamp16_range _).1
  · rw [hpt]; exact (clamp16_range _).2
  · intro x q h1 h2
    unfold quantize_one clamp16
    simp only [int16_min, int16_max] at h1 h2 ⊢
    omega

/-- Witness for `quantize_pixels_spec`: 64 coefficients of value 300/7
against a constant table entry 2 — `round (300/7/2) = 21` fits. -/
theorem quantize_pixels_spec_witness :
    (quantize_pixels (List.replicate 64 (300 / 7 : ℚ))
        (List.replicate 64 2)).length = 64 ∧
    (quantize_pixels (List.replicate 64 (300 / 7 : ℚ))
        (List.replicate 64 2)).getD 0 0 =
      quantize_one ((List.replicate 64 (300 / 7 : ℚ)).getD 0 0)
        ((List.replicate 64 (2 : Int)).getD 0 0) ∧
    int16_min ≤ (quantize_pixels (List.replicate 64 (300 / 7 : ℚ))
        (List.replicate 64 2)).getD 0 0 ∧
    (quantize_pixels (List.replicate 64 (300 / 7 : ℚ))
        (List.replicate 64 2)).getD 0 0 ≤ int16_max ∧
    (∀ (x : ℚ) (q : Int), int16_min ≤ round (x / (q : ℚ)) →
      round (x / (q : ℚ)) ≤ int16_max →
      quantize_one x q = round (x / (q : ℚ))) :=
  quantize_pixels_spec (List.replicate 64 (300 / 7 : ℚ))
    (List.replicate 64 2) 0 (by simp) (by simp) (by decide)

/-- C8: once a sink write (or allocation) has failed, the encoder instance
is terminally failed: over any further sequence of calls that contains no
`init`, every `read_image`/`process_end_of_image` call returns false, the
failure flag stays down, and a subsequent successful `init` restores a
working instance. -/
theorem failed_state_terminal (s : EncState) (ops : List EncOp)
    (hf : s.all_writes_ok = false)
    (hni : ∀ op ∈ ops, op.isInit = false) :
    (∀ p ∈ runOps s ops, p.1.isEncodeCall = true → p.2 = false) ∧
    (finalState s ops).all_writes_ok = false ∧
    (stepOp (finalState s ops) (EncOp.initOp true)).1 =
      ⟨true, true⟩ := by
  induction ops generalizing s with
  | nil =>
    exact ⟨by intro p hp; exact absurd hp (by simp [runOps]), hf, rfl⟩
  | cons op rest ih =>
    have hop : op.isInit = false := hni op (by simp)
    have hrest : ∀ o ∈ rest, o.isInit = false := by
      intro o ho; exact hni o (by simp [ho])
    have hstep : (stepOp s op).1.all_writes_ok = false ∧
        (op.isEncodeCall = true → (stepOp s op).2 = false) := by
      cases op with
      | readImage sink_ok =>
        unfold stepOp
        rw [hf]
        simp
      | processEnd sink_ok =>
        unfold stepOp
        rw [hf]
        simp
      | deinitOp => exact ⟨hf, by intro h; exact absurd h (by simp [EncOp.isEncodeCall])⟩
      | initOp pok => exact absurd hop (by simp [EncOp.isInit])
    obtain ⟨ihcalls, ihfinal, ihinit⟩ := ih (stepOp s op).1 hstep.1 hrest
    refine ⟨?_, ihfinal, ihinit⟩
    intro p hp hcall
    unfold runOps at hp
    rcases List.mem_cons.mp hp with heq | hmem
    · rw [heq] at hcall ⊢
      exact hstep.2 hcall
    · exact ihcalls p hmem hcall

/-- Witness for `failed_state_terminal`: a failed instance refuses a
scanline call and an end-of-image call, then deinit and a successful init
restore it. -/
theorem failed_state_terminal_witness :
    (∀ p ∈ runOps ⟨true, false⟩
        [EncOp.readImage true, EncOp.processEnd true, EncOp.deinitOp],
      p.1.isEncodeCall = true → p.2 = false) ∧
    (finalState ⟨true, false⟩
        [EncOp.readImage true, EncOp.processEnd true, EncOp.deinitOp]).all_writes_ok
      = false ∧
    (stepOp (finalState ⟨true, false⟩
        [EncOp.readImage true, EncOp.processEnd true, EncOp.deinitOp])
      (EncOp.initOp true)).1 = ⟨true, true⟩ :=
  failed_state_terminal ⟨true, false⟩
    [EncOp.readImage true, EncOp.processEnd true, EncOp.deinitOp]
    rfl (by decide)

/-- The sibling search never goes above its starting index. -/
theorem findJ_le (bits : Nat → Nat) : ∀ n, findJ bits n ≤ n := by
  intro n
  induction n with
  | zero => exact Nat.le_refl 0
  | succ m ih =>
    unfold findJ
    by_cases h : bits (m + 1) ≠ 0
    · rw [if_pos h]
    · rw [if_neg h]
      exact Nat.le_succ_of_le ih

/-- One adjustment step only modifies histogram slots at or below `i`. -/
theorem adjustStep_gt (bits : Nat → Nat) (i k : Nat) (hi : 2 ≤ i)
    (hk : i < k) : adjustStep bits i k = bits k := by
  have hj : findJ bits (i - 2) ≤ i - 2 := findJ_le bits (i - 2)
  simp only [adjustStep, updateAt]
  rw [if_neg (show ¬(k = findJ bits (i - 2)) from by omega),
    if_neg (show ¬(k = findJ bits (i - 2) + 1) from by omega),
    if_neg (show ¬(k = i - 1) from by omega),
    if_neg (show ¬(k = i) from by omega)]

/-- One adjustment step removes exactly two codes from length `i`. -/
theorem adjustStep_self (bits : Nat → Nat) (i : Nat) (hi : 2 ≤ i) :
    adjustStep bits i i = bits i - 2 := by
  have hj : findJ bits (i - 2) ≤ i - 2 := findJ_le bits (i - 2)
  simp only [adjustStep, updateAt]
  rw [if_neg (show ¬(i = findJ bits (i - 2)) from by omega),
    if_neg (show ¬(i = findJ bits (i - 2) + 1) from by omega),
    if_neg (show ¬(i = i - 1) from by omega)]
  simp

/-- One adjustment step keeps the unused slot 0 of the histogram at zero. -/
theorem adjustStep_zero (bits : Nat → Nat) (i : Nat) (hi : 17 ≤ i)
    (h0 : bits 0 = 0) : adjustStep bits i 0 = 0 := by
  have hj : findJ bits (i - 2) ≤ i - 2 := findJ_le bits (i - 2)
  simp only [adjustStep, updateAt]
  by_cases hz : (0 : Nat) = findJ bits (i - 2)
  · rw [if_pos hz,
      if_neg (show ¬(findJ bits (i - 2) = findJ bits (i - 2) + 1) from by omega),
      if_neg (show ¬(findJ bits (i - 2) = i - 1) from by omega),
      if_neg (show ¬(findJ bits (i - 2) = i) from by omega), ← hz, h0]
  · rw [if_neg hz,
      if_neg (show ¬((0 : Nat) = findJ bits (i - 2) + 1) from by omega),
      if_neg (show ¬((0 : Nat) = i - 1) from by omega),
      if_neg (show ¬((0 : Nat) = i) from by omega)]
    exact h0

/-- The inner adjustment loop only modifies slots at or below `i`. -/
theorem adjustLoop_gt : ∀ (fuel : Nat) (bits : Nat → Nat) (i k : Nat),
    2 ≤ i → i < k → adjustLoop fuel bits i k = bits k := by
  intro fuel
  induction fuel with
  | zero => intro bits i k _ _; rfl
  | succ f ih =>
    intro bits i k hi hk
    unfold adjustLoop
    by_cases hz : bits i = 0
    · rw [if_pos hz]
    · rw [if_neg hz, ih _ i k hi hk, adjustStep_gt bits i k hi hk]

/-- With enough fuel, the inner adjustment loop empties slot `i`. -/
theorem adjustLoop_self : ∀ (fuel : Nat) (bits : Nat → Nat) (i : Nat),
    2 ≤ i → bits i ≤ fuel → adjustLoop fuel bits i i = 0 := by
  intro fuel
  induction fuel with
  | zero =>
    intro bits i _ hb
    have h : bits i = 0 := by omega
    exact h
  | succ f ih =>
    intro bits i hi hb
    unfold adjustLoop
    by_cases hz : bits i = 0
    · rw [if_pos hz]; exact hz
    · rw [if_neg hz]
      refine ih _ i hi ?_
      rw [adjustStep_self bits i hi]
      omega

/-- The inner adjustment loop keeps slot 0 at zero. -/
theorem adjustLoop_zero : ∀ (fuel : Nat) (bits : Nat → Nat) (i : Nat),
    17 ≤ i → bits 0 = 0 → adjustLoop fuel bits i 0 = 0 := by
  intro fuel
  induction fuel with
  | zero => intro bits i _ h0; exact h0
  | succ f ih =>
    intro bits i hi h0
    unfold adjustLoop
    by_cases hz : bits i = 0
    · rw [if_pos hz]; exact h0
    · rw [if_neg hz]
      exact ih _ i hi (adjustStep_zero bits i hi h0)

/-- After the outer adjustment loop over lengths `16+k .. 17`, every slot
above 16 is empty and slot 0 stays empty. -/
theorem adjustAll_spec : ∀ (k : Nat) (bits : Nat → Nat),
    (∀ m, 16 + k < m → bits m = 0) → bits 0 = 0 →
    (∀ m, 16 < m → adjustAll bits k m = 0) ∧ adjustAll bits k 0 = 0 := by
  intro k
  induction k with
  | zero =>
    intro bits hm h0
    exact ⟨fun m hm16 => hm m (by omega), h0⟩
  | succ j ih =>
    intro bits hm h0
    unfold adjustAll
    apply ih
    · intro m hmj
      by_cases hgt : 17 + j < m
      · rw [adjustLoop_gt _ _ _ _ (by omega) hgt]
        exact hm m (by omega)
      · have hme : m = 17 + j := by omega
        subst hme
        exact adjustLoop_self _ _ _ (by omega) (Nat.le_refl _)
    · exact adjustLoop_zero _ _ _ (by omega) h0

/-- Canonical-code monotonicity: the first code of a longer length, left
justified, lies beyond every code of a shorter length. -/
theorem firstCode_lower (bits : Nat → Nat) (l₁ : Nat) : ∀ l₂ : Nat, l₁ < l₂ →
    2 ^ (l₂ - l₁) * (firstCode bits l₁ + bits l₁) ≤ firstCode bits l₂ := by
  intro l₂
  induction l₂ with
  | zero => intro h; exact absurd h (by omega)
  | succ m ih =>
    intro h
    have heq : firstCode bits (m + 1) = 2 * (firstCode bits m + bits m) := rfl
    by_cases hlm : l₁ = m
    · subst hlm
      rw [show l₁ + 1 - l₁ = 1 from by omega, pow_one, heq]
    · have hlt : l₁ < m := by omega
      have hih := ih hlt
      have hpow : (2 : Nat) ^ (m + 1 - l₁) = 2 * 2 ^ (m - l₁) := by
        rw [show m + 1 - l₁ = (m - l₁) + 1 from by omega, pow_succ]
        ring
      calc 2 ^ (m + 1 - l₁) * (firstCode bits l₁ + bits l₁)
          = 2 * (2 ^ (m - l₁) * (firstCode bits l₁ + bits l₁)) := by
            rw [hpow]; ring
        _ ≤ 2 * firstCode bits m := by omega
        _ ≤ firstCode bits (m + 1) := by rw [heq]; omega

/-- The end of the code range at length `l`, left justified to 16 bits, is
the partial Kraft sum through `l`. -/
theorem firstCode_kraft (bits : Nat → Nat) (h0 : bits 0 = 0) : ∀ l : Nat,
    1 ≤ l → l ≤ 16 →
    (firstCode bits l + bits l) * 2 ^ (16 - l) = kraftTo bits l := by
  intro l
  induction l with
  | zero => intro h _; exact absurd h (by omega)
  | succ m ih =>
    intro _ hle
    by_cases hm : m = 0
    · subst hm
      have h1 : firstCode bits 1 = 0 := by
        show 2 * (firstCode bits 0 + bits 0) = 0
        simp [firstCode, h0]
      have hk1 : kraftTo bits 1 = bits 1 * 2 ^ 15 := by
        show kraftTo bits 0 + bits 1 * 2 ^ (16 - 1) = bits 1 * 2 ^ 15
        simp [kraftTo]
      rw [h1, hk1]
      simp
    · have hm1 : 1 ≤ m := by omega
      have hm16 : m ≤ 16 := by omega
      have hih := ih hm1 hm16
      have heq : firstCode bits (m + 1) = 2 * (firstCode bits m + bits m) := rfl
      have hpow : (2 : Nat) ^ (16 - m) = 2 * 2 ^ (16 - (m + 1)) := by
        rw [show 16 - m = (16 - (m + 1)) + 1 from by omega, pow_succ]
        ring
      have hkr : kraftTo bits (m + 1) =
          kraftTo bits m + bits (m + 1) * 2 ^ (16 - (m + 1)) := rfl
      rw [hkr, heq, ← hih, hpow]
      ring

/-- Partial Kraft sums are monotone in the bound. -/
theorem kraftTo_mono (bits : Nat → Nat) : ∀ l m : Nat, l ≤ m →
    kraftTo bits l ≤ kraftTo bits m := by
  intro l m
  induction m with
  | zero =>
    intro h
    have hl : l = 0 := by omega
    subst hl
    exact Nat.le_refl _
  | succ k ih =>
    intro h
    by_cases hk : l = k + 1
    · subst hk; exact Nat.le_refl _
    · have hlk : l ≤ k := by omega
      have h2 := ih hlk
      have hkk : kraftTo bits (k + 1) =
          kraftTo bits k + bits (k + 1) * 2 ^ (16 - (k + 1)) := rfl
      omega

/-- C6: after `huffman_table::optimize`'s length-limiting adjustment and
`huffman_table::compute`'s canonical assignment, every used code length is
at most 16, every code fits in its length (given the Kraft condition the
construction maintains), no assigned code is a prefix of another, and codes
of equal length are assigned in increasing symbol order. -/
theorem huffman_table_canonical (raw : Nat → Nat)
    (h32 : ∀ m, 32 < m → raw m = 0) (h0 : raw 0 = 0)
    (hk : kraftTo (optimize_adjust raw) 16 ≤ 2 ^ 16) :
    (∀ m, 16 < m → optimize_adjust raw m = 0) ∧
    (∀ l k, 1 ≤ l → l ≤ 16 → k < optimize_adjust raw l →
      codeOf (optimize_adjust raw) l k < 2 ^ l) ∧
    (∀ l₁ k₁ l₂ k₂, 1 ≤ l₁ → k₁ < optimize_adjust raw l₁ →
      k₂ < optimize_adjust raw l₂ → (l₁ = l₂ → k₁ ≠ k₂) →
      ¬ isPrefixCode (codeOf (optimize_adjust raw) l₁ k₁) l₁
        (codeOf (optimize_adjust raw) l₂ k₂) l₂) ∧
    (∀ l k k', k < k' → k' < optimize_adjust raw l →
      codeOf (optimize_adjust raw) l k < codeOf (optimize_adjust raw) l k') := by
  have hadj := adjustAll_spec 16 raw (fun m hm => h32 m (by omega)) h0
  have hdef : optimize_adjust raw = adjustAll raw 16 := rfl
  rw [hdef] at hk ⊢
  set B := adjustAll raw 16 with hB
  obtain ⟨hhigh, hzero⟩ := hadj
  refine ⟨hhigh, ?_, ?_, ?_⟩
  · intro l k h1 h16 hkb
    have hfk := firstCode_kraft B hzero l h1 h16
    have hble : (firstCode B l + B l) * 2 ^ (16 - l) ≤ 2 ^ l * 2 ^ (16 - l) := by
      rw [← pow_add, show l + (16 - l) = 16 from by omega]
      calc (firstCode B l + B l) * 2 ^ (16 - l) = kraftTo B l := hfk
        _ ≤ kraftTo B 16 := kraftTo_mono B l 16 h16
        _ ≤ 2 ^ 16 := hk
    have hle : firstCode B l + B l ≤ 2 ^ l :=
      Nat.le_of_mul_le_mul_right hble (by positivity)
    unfold codeOf
    omega
  · intro l₁ k₁ l₂ k₂ h1 hk1 hk2 hne
    rintro ⟨hl12, hdiv⟩
    by_cases heq : l₁ = l₂
    · subst heq
      rw [show l₁ - l₁ = 0 from by omega, pow_zero, Nat.div_one] at hdiv
      unfold codeOf at hdiv
      exact (hne rfl) (by omega)
    · have hlt : l₁ < l₂ := by omega
      have hlow := firstCode_lower B l₁ l₂ hlt
      have hge : firstCode B l₁ + B l₁ ≤
          codeOf B l₂ k₂ / 2 ^ (l₂ - l₁) := by
        rw [Nat.le_div_iff_mul_le (by positivity)]
        unfold codeOf
        calc (firstCode B l₁ + B l₁) * 2 ^ (l₂ - l₁)
            = 2 ^ (l₂ - l₁) * (firstCode B l₁ + B l₁) := by ring
          _ ≤ firstCode B l₂ := hlow
          _ ≤ firstCode B l₂ + k₂ := by omega
      rw [hdiv] at hge
      unfold codeOf at hge
      omega
  · intro l k k' hkk hkb
    unfold codeOf
    omega

/-- Witness for `huffman_table_canonical` on `rawHistSample`: the
adjustment moves the two depth-17 codes to depths 16 and 3, and the
canonical code set over the result is prefix-free. -/
theorem huffman_table_canonical_witness :
    (∀ m, 16 < m → optimize_adjust rawHistSample m = 0) ∧
    (∀ l k, 1 ≤ l → l ≤ 16 → k < optimize_adjust rawHistSample l →
      codeOf (optimize_adjust rawHistSample) l k < 2 ^ l) ∧
    (∀ l₁ k₁ l₂ k₂, 1 ≤ l₁ → k₁ < optimize_adjust rawHistSample l₁ →
      k₂ < optimize_adjust rawHistSample l₂ → (l₁ = l₂ → k₁ ≠ k₂) →
      ¬ isPrefixCode (codeOf (optimize_adjust rawHistSample) l₁ k₁) l₁
        (codeOf (optimize_adjust rawHistSample) l₂ k₂) l₂) ∧
    (∀ l k k', k < k' → k' < optimize_adjust rawHistSample l →
      codeOf (optimize_adjust rawHistSample) l k <
        codeOf (optimize_adjust rawHistSample) l k') :=
  huffman_table_canonical rawHistSample
    (by
      intro m hm
      show (if m = 2 then 1 else if m = 17 then 2 else 0) = 0
      rw [if_neg (by omega), if_neg (by omega)])
    rfl
    (by decide)

end jpge
